import Mathlib

/-!
Verification of the MinHeap / Queue repository.

The JavaScript source stores heap entries in a growable array whose slot 0
holds the placeholder `null`; every inserted number occupies a slot `≥ 1`.
We embed the backing array as a `List (Option Int)` where `none` models the
JavaScript `null` and `some n` models the number `n`.  Array reads `heap[i]`
are modelled by `l[i]?`, whose outer `none` models the JavaScript
`undefined` returned for an out-of-bounds read.  JavaScript relational
operators coerce `null` to `0` and yield `false` whenever one operand is
`undefined`; `jsLt` and `jsLe` below reproduce exactly that.
-/

namespace MinHeap

/-- Numeric coercion applied by JavaScript relational operators: `null` is
coerced to `0`, a number is itself. -/
def jsNum : Option Int → Int
  | none => 0
  | some n => n

/-- The JavaScript `<` on two array reads: `false` when either side is an
out-of-bounds (`undefined`) read, otherwise numeric comparison after
coercing `null` to `0`. -/
def jsLt : Option (Option Int) → Option (Option Int) → Bool
  | some a, some b => decide (jsNum a < jsNum b)
  | _, _ => false

/-- The JavaScript `<=` on two array reads, with the same conventions as
`jsLt`. -/
def jsLe : Option (Option Int) → Option (Option Int) → Bool
  | some a, some b => decide (jsNum a ≤ jsNum b)
  | _, _ => false

/-- The tuple-assignment swap of `heap[i]` and `heap[j]` from the source
(`swap` method and the inline swap in `insert`).  Both call sites use
in-bounds indices, where this is exactly the JavaScript behaviour. -/
def swap (heap : List (Option Int)) (i j : Nat) : List (Option Int) :=
  (heap.set i (heap.getD j none)).set j (heap.getD i none)

/-- Source `idxOfLeftChild`: `i * 2`. -/
def idxOfLeftChild (i : Nat) : Nat := i * 2

/-- Source `idxOfRightChild`: `i * 2 + 1`. -/
def idxOfRightChild (i : Nat) : Nat := i * 2 + 1

/-- The while-loop of `insert` in `src/unnamed/part_000`.  State is the pair
(array, `currentIdx`); `parentIdx` is `Math.floor(currentIdx / 2)`, both at
the initial comparison (`Math.floor((heap.length - 1) / 2)` with
`currentIdx = heap.length - 1`) and at every recomputation inside the loop.
The loop body swaps `heap[currentIdx]` with `heap[parentIdx]` while
`heap[currentIdx] < heap[parentIdx]`.  The fuel argument only bounds the
iteration count; `insert` passes enough fuel for the loop to run to its
exit condition. -/
def shiftUpF : Nat → List (Option Int) → Nat → List (Option Int)
  | 0, heap, _ => heap
  | fuel + 1, heap, currentIdx =>
    if jsLt heap[currentIdx]? heap[currentIdx / 2]? then
      shiftUpF fuel (swap heap currentIdx (currentIdx / 2)) (currentIdx / 2)
    else heap

/-- Source `insert` from `src/unnamed/part_000`: push `some num`, then run
the sift-up loop from `currentIdx = heap.length - 1`. -/
def insert (heap : List (Option Int)) (num : Int) : List (Option Int) :=
  let h2 := heap ++ [some num]
  shiftUpF h2.length h2 (h2.length - 1)

/-- Source `top`: `return this.heap[1]` (an out-of-bounds read, i.e. outer
`none`, models the `undefined` returned on a heap of length 1). -/
def top (heap : List (Option Int)) : Option (Option Int) :=
  heap[1]?

/-- The `idxOfSmallestChild` computation inside the `shiftDown` loop: the
right child is considered only when `idxOfRightChild < heap.length`
(`isRightChildInBounds`), and replaces the left child only when its value is
strictly smaller (`isRightChildSmaller`). -/
def smallestChildIdx (heap : List (Option Int)) (node : Nat) : Nat :=
  if decide (idxOfRightChild node < heap.length)
      && jsLt heap[idxOfRightChild node]? heap[idxOfLeftChild node]? then
    idxOfRightChild node
  else
    idxOfLeftChild node

/-- The while-loop of `shiftDown`: while `idxOfLeftChild < heap.length`,
pick `idxOfSmallestChild`, break when
`heap[idxOfNodeToShiftDown] <= heap[idxOfSmallestChild]`
(`isParentSmallerOrEqual`), otherwise swap and continue from the child's
index.  Fuel only bounds the iteration count. -/
def shiftDownF : Nat → List (Option Int) → Nat → List (Option Int)
  | 0, heap, _ => heap
  | fuel + 1, heap, node =>
    if idxOfLeftChild node < heap.length then
      if jsLe heap[node]? heap[smallestChildIdx heap node]? then heap
      else shiftDownF fuel (swap heap node (smallestChildIdx heap node))
        (smallestChildIdx heap node)
    else heap

/-- Source `shiftDown`: run the loop from `idxOfNodeToShiftDown = 1`.
`heap.length` iterations are more than enough fuel, since the node index at
least doubles every iteration. -/
def shiftDown (heap : List (Option Int)) : List (Option Int) :=
  shiftDownF heap.length heap 1

/-- Source `extract`: return `null` on length 1; otherwise record
`heap[1]`, pop the last element, return immediately if only the placeholder
remains, else overwrite index 1 with the popped element and `shiftDown`.
The first component is the returned value (`none` models the JavaScript
`null`), the second the heap after the call. -/
def extract (heap : List (Option Int)) : Option Int × List (Option Int) :=
  if heap.length = 1 then (none, heap)
  else
    let min := heap.getD 1 none
    let lastNode := heap.getD (heap.length - 1) none
    let popped := heap.dropLast
    if popped.length = 1 then (min, popped)
    else (min, shiftDown (popped.set 1 lastNode))

/-- The constructor: `this.heap = [null]`. -/
def mkHeap : List (Option Int) := [none]

/-- Number of stored values: backing length minus the slot-0 placeholder. -/
def size (heap : List (Option Int)) : Nat := heap.length - 1

/-- Inserting each element of a list in order into a freshly constructed
heap. -/
def insertList (nums : List Int) : List (Option Int) :=
  nums.foldl insert mkHeap

/-- Calling `extract` `k` times, collecting the returned values in call
order together with the final heap. -/
def extractN (heap : List (Option Int)) : Nat → List (Option Int) × List (Option Int)
  | 0 => ([], heap)
  | k + 1 =>
    let r := extract heap
    let rest := extractN r.2 k
    (r.1 :: rest.1, rest.2)

/-- C1.  On the documented non-negative input the insert/extract round trip
does sort: inserting [5,3,2,7,8,23,2,3] and extracting eight times yields
[2,2,3,3,5,7,8,23] and leaves only the placeholder.  But the claim is
universally quantified over numeric values, and on the input [-2] the
sift-up loop swaps the inserted value with the slot-0 `null` placeholder;
the single extract then returns `null` (absence) instead of -2 and strands
-2 at index 0, so the claimed round trip fails for negative values. -/
theorem c1_roundtrip_and_negative_input_bug :
    extractN (insertList [5, 3, 2, 7, 8, 23, 2, 3]) 8
      = ([some 2, some 2, some 3, some 3, some 5, some 7, some 8, some 23], [none])
    ∧ insertList [-2] = [some (-2), none]
    ∧ extractN (insertList [-2]) 1 = ([none], [some (-2)]) := by
  decide

/-- C2.  After the insert sequence [5, -1] the backing array is
[-1, null, 5]: occupied index 1 holds the `null` placeholder rather than a
number and the minimum -1 sits in the reserved slot 0, so the claimed
heap-order relation between the stored value at index 2 and the value at
its parent index 1 does not hold after this insert. -/
theorem c2_invariant_bug_eval :
    insertList [5, -1] = [some (-1), none, some 5]
    ∧ (insertList [5, -1]).getD 1 none = none
    ∧ (insertList [5, -1]).getD 2 none = some 5 := by
  decide

/-- C3.  After inserting 7 and -3 the heap stores the numbers -3 and 7
(size 2, so it is non-empty), yet `extract` returns `null` instead of the
minimum -3; the size does decrease by exactly 1, from 2 to 1. -/
theorem c3_extract_bug_eval :
    insertList [7, -3] = [some (-3), none, some 7]
    ∧ (extract (insertList [7, -3])).1 = none
    ∧ size (extract (insertList [7, -3])).2 = 1
    ∧ size (insertList [7, -3]) = 2 := by
  decide

/-- C4.  Inserting -1 into a freshly constructed heap appends it and then
the sift-up loop swaps it with the `null` placeholder: the value ends at
index 0 and `null` at index 1, so the loop does move the value past
index 1, contrary to the claim. -/
theorem c4_siftup_past_root_eval :
    insert mkHeap (-1) = [some (-1), none]
    ∧ (insert mkHeap (-1)).getD 0 none = some (-1) := by
  decide

/-- C7.  After inserting -1 the heap stores the number -1 (at slot 0), yet
`top` returns the JavaScript `null` (the placeholder now at index 1)
instead of the stored minimum -1. -/
theorem c7_top_bug_eval :
    top (insert mkHeap (-1)) = some none
    ∧ insert mkHeap (-1) = [some (-1), none] := by
  decide

/-- C5.  On an empty heap (backing array of length 1, only the
placeholder): `top` is the out-of-bounds read `undefined` (a non-numeric
absence signal), `extract` returns `null` and leaves the state untouched,
and repeating `extract` any number of times keeps returning `null` with
the state — in particular the size — unchanged. -/
theorem c5_empty_heap_ops (h : List (Option Int)) (hl : h.length = 1) :
    top h = none ∧ extract h = (none, h)
    ∧ ∀ k, extractN h k = (List.replicate k none, h) := by
  have htop : top h = none := by
    unfold top
    exact List.getElem?_eq_none (by omega)
  have hext : extract h = (none, h) := by
    unfold extract
    rw [if_pos hl]
  refine ⟨htop, hext, ?_⟩
  intro k
  induction k with
  | zero => rfl
  | succ k ih =>
    unfold extractN
    rw [hext]
    simp [ih, List.replicate_succ]

/-- Witness for C5 at the freshly constructed heap. -/
theorem c5_empty_heap_ops_witness :
    mkHeap.length = 1 ∧ extractN mkHeap 5 = (List.replicate 5 none, mkHeap) :=
  ⟨rfl, (c5_empty_heap_ops mkHeap rfl).2.2 5⟩

/-- The number the JavaScript comparisons see at slot `i` (out-of-bounds
and `null` both coerce to `0`; in-bounds numeric slots are themselves). -/
def valAt (heap : List (Option Int)) (i : Nat) : Int :=
  jsNum (heap.getD i none)

theorem getElem?_eq_some_getD {h : List (Option Int)} {i : Nat} (hi : i < h.length) :
    h[i]? = some (h.getD i none) := by
  rw [List.getElem?_eq_getElem hi, List.getD_eq_getElem h none hi]

theorem jsLt_eval {h : List (Option Int)} {i j : Nat} (hi : i < h.length)
    (hj : j < h.length) : jsLt h[i]? h[j]? = decide (valAt h i < valAt h j) := by
  rw [getElem?_eq_some_getD hi, getElem?_eq_some_getD hj]
  rfl

theorem jsLe_eval {h : List (Option Int)} {i j : Nat} (hi : i < h.length)
    (hj : j < h.length) : jsLe h[i]? h[j]? = decide (valAt h i ≤ valAt h j) := by
  rw [getElem?_eq_some_getD hi, getElem?_eq_some_getD hj]
  rfl

theorem length_swap (h : List (Option Int)) (i j : Nat) :
    (swap h i j).length = h.length := by
  simp [swap]

theorem getElem?_swap_ne {h : List (Option Int)} {i j k : Nat} (hik : k ≠ i)
    (hjk : k ≠ j) : (swap h i j)[k]? = h[k]? := by
  unfold swap
  rw [List.getElem?_set_ne (by omega), List.getElem?_set_ne (by omega)]

theorem smallestChildIdx_cases (h : List (Option Int)) (node : Nat) :
    smallestChildIdx h node = idxOfLeftChild node ∨
      smallestChildIdx h node = idxOfRightChild node := by
  unfold smallestChildIdx
  split
  · exact Or.inr rfl
  · exact Or.inl rfl

theorem node_le_smallestChildIdx (h : List (Option Int)) (node : Nat) :
    node ≤ smallestChildIdx h node := by
  rcases smallestChildIdx_cases h node with hc | hc <;> rw [hc] <;>
    simp only [idxOfLeftChild, idxOfRightChild] <;> omega

theorem node_lt_smallestChildIdx (h : List (Option Int)) {node : Nat}
    (hnode : 1 ≤ node) : node < smallestChildIdx h node := by
  rcases smallestChildIdx_cases h node with hc | hc <;> rw [hc] <;>
    simp only [idxOfLeftChild, idxOfRightChild] <;> omega

/-- Entries strictly below the node being sifted down are never touched by
the sift-down loop. -/
theorem getElem?_shiftDownF_lt :
    ∀ (fuel : Nat) (h : List (Option Int)) (node i : Nat), i < node →
      (shiftDownF fuel h node)[i]? = h[i]? := by
  intro fuel
  induction fuel with
  | zero => intro h node i _; rfl
  | succ fuel ih =>
    intro h node i hi
    simp only [shiftDownF]
    split
    · split
      · rfl
      · rw [ih _ _ _ (lt_of_lt_of_le hi (node_le_smallestChildIdx h node))]
        exact getElem?_swap_ne (by omega)
          (by have := node_le_smallestChildIdx h node; omega)
    · rfl

theorem smallestChildIdx_lt_length {h : List (Option Int)} {node : Nat}
    (hl : idxOfLeftChild node < h.length) : smallestChildIdx h node < h.length := by
  unfold smallestChildIdx
  split
  case isTrue hcond =>
    simp only [Bool.and_eq_true, decide_eq_true_eq] at hcond
    exact hcond.1
  case isFalse => exact hl

theorem smallestChildIdx_eq_right_iff {h : List (Option Int)} {node : Nat}
    (hl : idxOfLeftChild node < h.length) :
    smallestChildIdx h node = idxOfRightChild node ↔
      idxOfRightChild node < h.length ∧
        valAt h (idxOfRightChild node) < valAt h (idxOfLeftChild node) := by
  unfold smallestChildIdx
  split
  case isTrue hcond =>
    simp only [Bool.and_eq_true, decide_eq_true_eq] at hcond
    obtain ⟨hr, hlt⟩ := hcond
    rw [jsLt_eval hr hl, decide_eq_true_eq] at hlt
    simp [hr, hlt]
  case isFalse hcond =>
    constructor
    · intro he
      exfalso
      simp only [idxOfLeftChild, idxOfRightChild] at he
      omega
    · rintro ⟨hr, hlt⟩
      refine absurd ?_ hcond
      simp only [Bool.and_eq_true, decide_eq_true_eq]
      exact ⟨hr, by rw [jsLt_eval hr hl, decide_eq_true_eq]; exact hlt⟩

theorem smallestChildIdx_min {h : List (Option Int)} {node : Nat}
    (hl : idxOfLeftChild node < h.length) :
    ∀ c, (c = idxOfLeftChild node ∨ c = idxOfRightChild node) → c < h.length →
      valAt h (smallestChildIdx h node) ≤ valAt h c := by
  intro c hc hclen
  rcases smallestChildIdx_cases h node with hs | hs <;> rw [hs]
  · rcases hc with rfl | rfl
    · exact le_refl _
    · rcases lt_or_le (valAt h (idxOfRightChild node)) (valAt h (idxOfLeftChild node))
        with hlt | hle
      · exact absurd ((smallestChildIdx_eq_right_iff hl).2 ⟨hclen, hlt⟩)
          (by rw [hs]; simp only [idxOfLeftChild, idxOfRightChild]; omega)
      · exact hle
  · have := (smallestChildIdx_eq_right_iff hl).1 hs
    rcases hc with rfl | rfl
    · exact le_of_lt this.2
    · exact le_refl _

/-- C6.  One pass of the `shiftDown` loop, for any heap state and any node
index `≥ 1` that the loop can visit.  When the node has no in-bounds left
child the loop exits with the heap unchanged.  Otherwise the chosen
`idxOfSmallestChild` is one of the two child slots, is in bounds, equals
the right child exactly when that child is in bounds and strictly smaller
than the left child (an out-of-bounds right child is treated as "not
smaller" by the explicit bounds check), and carries the smaller value of
the in-bounds children; the loop stops (heap returned unchanged) exactly
when the node's value is less than or equal to the chosen child's value,
and otherwise swaps the node with that child and continues from the
child's index. -/
theorem c6_shiftdown_step (h : List (Option Int)) (node fuel : Nat)
    (hnode : 1 ≤ node) :
    (h.length ≤ idxOfLeftChild node → shiftDownF (fuel + 1) h node = h)
    ∧ (idxOfLeftChild node < h.length →
        (smallestChildIdx h node = idxOfLeftChild node ∨
          smallestChildIdx h node = idxOfRightChild node)
        ∧ smallestChildIdx h node < h.length
        ∧ (smallestChildIdx h node = idxOfRightChild node ↔
            idxOfRightChild node < h.length ∧
              valAt h (idxOfRightChild node) < valAt h (idxOfLeftChild node))
        ∧ (∀ c, (c = idxOfLeftChild node ∨ c = idxOfRightChild node) →
            c < h.length → valAt h (smallestChildIdx h node) ≤ valAt h c)
        ∧ (shiftDownF (fuel + 1) h node = h ↔
            valAt h node ≤ valAt h (smallestChildIdx h node))
        ∧ (valAt h (smallestChildIdx h node) < valAt h node →
            shiftDownF (fuel + 1) h node =
              shiftDownF fuel (swap h node (smallestChildIdx h node))
                (smallestChildIdx h node))) := by
  constructor
  · intro hnl
    simp only [shiftDownF]
    rw [if_neg (by omega)]
  · intro hl
    have hnlen : node < h.length := by
      have : node ≤ idxOfLeftChild node := by
        simp only [idxOfLeftChild]; omega
      omega
    have hslen : smallestChildIdx h node < h.length := smallestChildIdx_lt_length hl
    have hle_eval : jsLe h[node]? h[smallestChildIdx h node]? =
        decide (valAt h node ≤ valAt h (smallestChildIdx h node)) :=
      jsLe_eval hnlen hslen
    refine ⟨smallestChildIdx_cases h node, hslen, smallestChildIdx_eq_right_iff hl,
      smallestChildIdx_min hl, ?_, ?_⟩
    · constructor
      · intro hres
        by_contra hgt
        push_neg at hgt
        have hstep : shiftDownF (fuel + 1) h node =
            shiftDownF fuel (swap h node (smallestChildIdx h node))
              (smallestChildIdx h node) := by
          simp only [shiftDownF]
          rw [if_pos hl, if_neg (by rw [hle_eval]; simpa using not_le_of_lt hgt)]
        have hlt := node_lt_smallestChildIdx h hnode
        have hread : (shiftDownF fuel (swap h node (smallestChildIdx h node))
            (smallestChildIdx h node))[node]? =
            (swap h node (smallestChildIdx h node))[node]? :=
          getElem?_shiftDownF_lt fuel _ _ _ hlt
        have hswap : (swap h node (smallestChildIdx h node))[node]? =
            some (h.getD (smallestChildIdx h node) none) := by
          unfold swap
          rw [List.getElem?_set_ne (by omega)]
          exact List.getElem?_set_eq_of_lt _ hnlen
        have h2 : shiftDownF fuel (swap h node (smallestChildIdx h node))
            (smallestChildIdx h node) = h := hstep.symm.trans hres
        have h3 : (swap h node (smallestChildIdx h node))[node]? = h[node]? := by
          rw [← hread, h2]
        rw [hswap, getElem?_eq_some_getD hnlen] at h3
        have : valAt h (smallestChildIdx h node) = valAt h node := by
          unfold valAt
          rw [Option.some_inj.mp h3]
        omega
      · intro hle
        simp only [shiftDownF]
        rw [if_pos hl, if_pos (by rw [hle_eval]; simpa)]
    · intro hlt
      simp only [shiftDownF]
      rw [if_pos hl, if_neg (by rw [hle_eval]; simpa using not_le_of_lt hlt)]

/-- Witness for C6 at a concrete three-slot heap whose root must sink. -/
theorem c6_shiftdown_step_witness :
    shiftDownF 2 [none, some 9, some 1] 1 =
      shiftDownF 1 (swap [none, some 9, some 1] 1 2)
        (smallestChildIdx [none, some 9, some 1] 1) := by
  have hc := c6_shiftdown_step [none, some 9, some 1] 1 1 (by decide)
  exact (hc.2 (by decide)).2.2.2.2.2 (by decide)

/-- Calls a client can make on a `MinHeap` instance. -/
inductive MHOp where
  | ins (n : Int)
  | ext
  | top

/-- Effect of one call on the backing array (`top` only reads `heap[1]`). -/
def step (h : List (Option Int)) : MHOp → List (Option Int)
  | .ins n => insert h n
  | .ext => (extract h).2
  | .top => h

/-- The hypothesis of C9: an insert call only ever receives a value `≥ 0`. -/
def opOk : MHOp → Bool
  | .ins n => decide (0 ≤ n)
  | .ext => true
  | .top => true

/-- The backing array after a sequence of calls on a freshly constructed
heap. -/
def runOps (ops : List MHOp) : List (Option Int) :=
  ops.foldl step mkHeap

/-- The inductive state invariant under non-negative insertions: slot 0
holds the `null` placeholder and every occupied slot `≥ 1` holds a
non-negative number. -/
def Wf (h : List (Option Int)) : Prop :=
  h[0]? = some none ∧
    ∀ i x, 1 ≤ i → h[i]? = some x → ∃ n : Int, x = some n ∧ 0 ≤ n

theorem lt_length_of_getElem?_some {l : List (Option Int)} {i : Nat}
    {x : Option Int} (hx : l[i]? = some x) : i < l.length := by
  rcases List.getElem?_eq_some.mp hx with ⟨hlt, _⟩
  exact hlt

theorem Wf_swap {h : List (Option Int)} {i j : Nat} (hw : Wf h) (hi : 1 ≤ i)
    (hj : 1 ≤ j) (hil : i < h.length) (hjl : j < h.length) : Wf (swap h i j) := by
  obtain ⟨h0, hval⟩ := hw
  constructor
  · unfold swap
    rw [List.getElem?_set_ne (by omega), List.getElem?_set_ne (by omega)]
    exact h0
  · intro k x hk hkx
    unfold swap at hkx
    rcases eq_or_ne k j with rfl | hkj
    · rw [List.getElem?_set_eq_of_lt _ (by rw [List.length_set]; exact hjl)] at hkx
      obtain ⟨n, hn, hn0⟩ := hval i (h.getD i none) hi (getElem?_eq_some_getD hil)
      exact ⟨n, by rw [← Option.some_inj.mp hkx]; exact hn, hn0⟩
    · rw [List.getElem?_set_ne (by omega)] at hkx
      rcases eq_or_ne k i with rfl | hki
      · rw [List.getElem?_set_eq_of_lt _ hil] at hkx
        obtain ⟨n, hn, hn0⟩ := hval j (h.getD j none) hj (getElem?_eq_some_getD hjl)
        exact ⟨n, by rw [← Option.some_inj.mp hkx]; exact hn, hn0⟩
      · rw [List.getElem?_set_ne (by omega)] at hkx
        exact hval k x hk hkx

theorem Wf_shiftUpF : ∀ (fuel : Nat) (h : List (Option Int)) (cur : Nat),
    Wf h → Wf (shiftUpF fuel h cur) := by
  intro fuel
  induction fuel with
  | zero => intro h cur hw; exact hw
  | succ fuel ih =>
    intro h cur hw
    simp only [shiftUpF]
    split
    case isFalse => exact hw
    case isTrue hcond =>
      rcases ha : h[cur]? with _ | a
      · rw [ha] at hcond; exact absurd hcond (by simp [jsLt])
      rcases hb : h[cur / 2]? with _ | b
      · rw [ha, hb] at hcond; exact absurd hcond (by simp [jsLt])
      rw [ha, hb] at hcond
      have hab : jsNum a < jsNum b := by
        simpa [jsLt] using hcond
      have hcl : cur < h.length := lt_length_of_getElem?_some ha
      have hpl : cur / 2 < h.length := lt_length_of_getElem?_some hb
      rcases Nat.lt_or_ge cur 2 with hcur2 | hcur2
      · interval_cases cur
        · rw [ha] at hb
          exact absurd hab (by rw [Option.some_inj.mp hb]; omega)
        · have hb0 : b = none := by
            have := hw.1
            rw [show (1 : Nat) / 2 = 0 by rfl] at hb
            rw [this] at hb
            exact (Option.some_inj.mp hb).symm
          rcases hw.2 1 a le_rfl ha with ⟨n, rfl, hn⟩
          rw [hb0] at hab
          exact absurd hab (by simp [jsNum]; omega)
      · exact ih _ _ (Wf_swap hw (by omega) (by omega) hcl hpl)

theorem Wf_insert {h : List (Option Int)} {num : Int} (hw : Wf h)
    (hnum : 0 ≤ num) : Wf (insert h num) := by
  refine Wf_shiftUpF _ _ _ ⟨?_, ?_⟩
  · rw [List.getElem?_append]
    have h0 : 0 < h.length := lt_length_of_getElem?_some hw.1
    rw [if_pos h0]
    exact hw.1
  · intro i x hi hix
    rw [List.getElem?_append] at hix
    split at hix
    · exact hw.2 i x hi hix
    · have hi0 : i - h.length = 0 := by
        rcases List.getElem?_eq_some.mp hix with ⟨hlt, _⟩
        simp only [List.length_cons, List.length_nil] at hlt
        omega
      rw [hi0] at hix
      simp only [List.getElem?_cons_zero] at hix
      exact ⟨num, (Option.some_inj.mp hix).symm, hnum⟩

theorem Wf_shiftDownF : ∀ (fuel : Nat) (h : List (Option Int)) (node : Nat),
    Wf h → 1 ≤ node → Wf (shiftDownF fuel h node) := by
  intro fuel
  induction fuel with
  | zero => intro h node hw _; exact hw
  | succ fuel ih =>
    intro h node hw hnode
    simp only [shiftDownF]
    split
    case isFalse => exact hw
    case isTrue hl =>
      split
      case isTrue => exact hw
      case isFalse =>
        have hs := node_lt_smallestChildIdx h hnode
        have hslen := smallestChildIdx_lt_length hl
        have hnlen : node < h.length := by
          have : node ≤ idxOfLeftChild node := by
            simp only [idxOfLeftChild]; omega
          omega
        exact ih _ _ (Wf_swap hw hnode (by omega) hnlen hslen) (by omega)

theorem Wf_extract {h : List (Option Int)} (hw : Wf h) : Wf (extract h).2 := by
  unfold extract
  split
  case isTrue => exact hw
  case isFalse hne =>
    have hlen : 2 ≤ h.length := by
      have := lt_length_of_getElem?_some hw.1
      omega
    have hwp : Wf h.dropLast := by
      constructor
      · rw [List.getElem?_dropLast, if_pos (by omega)]
        exact hw.1
      · intro i x hi hix
        rw [List.getElem?_dropLast] at hix
        split at hix
        · exact hw.2 i x hi hix
        · exact absurd hix (by simp)
    simp only
    split
    case isTrue => exact hwp
    case isFalse hne2 =>
      have hplen : 2 ≤ h.dropLast.length := by
        rw [List.length_dropLast]
        rw [List.length_dropLast] at hne2
        omega
      have hlast : ∃ n : Int, h.getD (h.length - 1) none = some n ∧ 0 ≤ n := by
        refine hw.2 (h.length - 1) _ (by omega) ?_
        exact getElem?_eq_some_getD (by omega)
      rcases hlast with ⟨n, hn, hn0⟩
      refine Wf_shiftDownF _ _ _ ⟨?_, ?_⟩ le_rfl
      · rw [List.getElem?_set_ne (by omega)]
        exact hwp.1
      · intro i x hi hix
        rcases eq_or_ne i 1 with rfl | hi1
        · rw [List.getElem?_set_eq_of_lt _ (by omega)] at hix
          rw [hn] at hix
          exact ⟨n, (Option.some_inj.mp hix).symm, hn0⟩
        · rw [List.getElem?_set_ne (by omega)] at hix
          exact hwp.2 i x hi hix

theorem Wf_foldl : ∀ (ops : List MHOp) (h : List (Option Int)), Wf h →
    ops.all opOk = true → Wf (ops.foldl step h) := by
  intro ops
  induction ops with
  | nil => intro h hw _; exact hw
  | cons op ops ih =>
    intro h hw hok
    rw [List.all_cons, Bool.and_eq_true] at hok
    refine ih _ ?_ hok.2
    cases op with
    | ins n =>
      have hn : 0 ≤ n := by simpa [opOk] using hok.1
      exact Wf_insert hw hn
    | ext => exact Wf_extract hw
    | top => exact hw

/-- C9.  Provided every inserted value is non-negative, after construction
and after any sequence of `top`, `insert` and `extract` calls, slot 0 of
the backing array still holds the `null` placeholder, and in particular no
stored number ever occupies index 0. -/
theorem c9_sentinel_invariant (ops : List MHOp) (hok : ops.all opOk = true) :
    (runOps ops)[0]? = some none ∧
      ∀ n : Int, (runOps ops)[0]? ≠ some (some n) := by
  have hw : Wf (runOps ops) := by
    refine Wf_foldl ops mkHeap ⟨rfl, ?_⟩ hok
    intro i x hi hix
    exact absurd hix (by
      rw [List.getElem?_eq_none (by simpa [mkHeap] using hi)]
      simp)
  refine ⟨hw.1, ?_⟩
  intro n hn
  rw [hw.1] at hn
  exact Option.noConfusion (Option.some_inj.mp hn)

/-- Witness for C9 on a concrete call sequence with non-negative inserts. -/
theorem c9_sentinel_invariant_witness :
    ([MHOp.ins 5, MHOp.ins 0, MHOp.top, MHOp.ext, MHOp.ext,
        MHOp.ext].all opOk = true) ∧
      (runOps [MHOp.ins 5, MHOp.ins 0, MHOp.top, MHOp.ext, MHOp.ext,
        MHOp.ext])[0]? = some none :=
  ⟨by decide, (c9_sentinel_invariant _ (by decide)).1⟩

/-!
The `insert` of `src/MinHeap/index.js`.  Its loop recomputes the parent
index as `Math.floor((currentIdx - 1) / 2)`, which is `-1` once
`currentIdx` reaches `0`; the resulting `heap[-1]` property access yields
`undefined`, so indices are modelled as integers and a negative index reads
as `none` (undefined).  `Math.floor(x / 2)` on integers is Lean's euclidean
`x / 2` (they agree for a positive divisor).
-/

/-- The JavaScript property access `heap[i]` for a possibly negative
integer index: `undefined` when the index is negative. -/
def jsGetI (h : List (Option Int)) (i : Int) : Option (Option Int) :=
  if 0 ≤ i then h[i.toNat]? else none

/-- The tuple-assignment swap with integer indices; every swap in
`index.js` happens with both indices non-negative and in bounds. -/
def swapI (h : List (Option Int)) (i j : Int) : List (Option Int) :=
  swap h i.toNat j.toNat

/-- The while-loop of `insert` in `src/MinHeap/index.js`: state is
(array, `currentIdx`, `parentIdx`); the loop swaps while
`heap[currentIdx] < heap[parentIdx]`, sets `currentIdx = parentIdx` and
recomputes `parentIdx = Math.floor((currentIdx - 1) / 2)`. -/
def shiftUpIdxF : Nat → List (Option Int) → Int → Int → List (Option Int)
  | 0, h, _, _ => h
  | fuel + 1, h, currentIdx, parentIdx =>
    if jsLt (jsGetI h currentIdx) (jsGetI h parentIdx) then
      shiftUpIdxF fuel (swapI h currentIdx parentIdx) parentIdx
        ((parentIdx - 1) / 2)
    else h

/-- Source `insert` from `src/MinHeap/index.js`: push `some num`, then loop
from `currentIdx = heap.length - 1` with the initial
`parentIdx = Math.floor((heap.length - 1) / 2)`. -/
def insertIdx (heap : List (Option Int)) (num : Int) : List (Option Int) :=
  let h2 := heap ++ [some num]
  shiftUpIdxF h2.length h2 ((h2.length : Int) - 1) (((h2.length : Int) - 1) / 2)

/-- Inserting each element of a list in order with the `index.js` insert. -/
def insertListIdx (nums : List Int) : List (Option Int) :=
  nums.foldl insertIdx mkHeap

theorem jsLt_self (x : Option (Option Int)) : jsLt x x = false := by
  cases x with
  | none => rfl
  | some a => simp [jsLt]

theorem jsLt_none_right (x : Option (Option Int)) : jsLt x none = false := by
  cases x <;> rfl

theorem shiftUpF_succ (fuel : Nat) (h : List (Option Int)) (cur : Nat) :
    shiftUpF (fuel + 1) h cur =
      if jsLt h[cur]? h[cur / 2]? then
        shiftUpF fuel (swap h cur (cur / 2)) (cur / 2)
      else h := rfl

theorem shiftUpIdxF_succ (fuel : Nat) (h : List (Option Int)) (cur par : Int) :
    shiftUpIdxF (fuel + 1) h cur par =
      if jsLt (jsGetI h cur) (jsGetI h par) then
        shiftUpIdxF fuel (swapI h cur par) par ((par - 1) / 2)
      else h := rfl

/-- The loop of `part_000` exits immediately at index 0, because the
condition compares slot 0 with itself. -/
theorem shiftUpF_cur_zero (fuel : Nat) (h : List (Option Int)) :
    shiftUpF (fuel + 1) h 0 = h := by
  rw [shiftUpF_succ]
  simp [jsLt_self]

/-- The loop of `index.js` exits as soon as `parentIdx` is negative: the
read `heap[parentIdx]` is `undefined` and `<` with `undefined` is false. -/
theorem shiftUpIdxF_par_neg (fuel : Nat) (h : List (Option Int)) (cur par : Int)
    (hpar : par < 0) : shiftUpIdxF (fuel + 1) h cur par = h := by
  rw [shiftUpIdxF_succ]
  have hg : jsGetI h par = none := by
    unfold jsGetI
    rw [if_neg (by omega)]
  rw [hg, jsLt_none_right]
  simp

theorem shiftUpIdxF_cur_zero (fuel : Nat) (h : List (Option Int)) :
    shiftUpIdxF (fuel + 1) h 0 0 = h := by
  rw [shiftUpIdxF_succ]
  simp [jsLt_self]

theorem jsGetI_nonneg (h : List (Option Int)) (i : Int) (hi : 0 ≤ i) :
    jsGetI h i = h[i.toNat]? := by
  unfold jsGetI
  rw [if_pos hi]

/-- From index 1 the two sift-up loops agree: both compare against slot 0
and both then stop (one by comparing slot 0 with itself, the other because
its recomputed parent index is -1). -/
theorem shiftUp_agree_one (f1 f2 : Nat) (h : List (Option Int)) :
    shiftUpF (f1 + 2) h 1 = shiftUpIdxF (f2 + 2) h 1 0 := by
  show shiftUpF (f1 + 1 + 1) h 1 = shiftUpIdxF (f2 + 1 + 1) h 1 0
  rw [shiftUpF_succ, shiftUpIdxF_succ]
  rw [jsGetI_nonneg _ _ (by norm_num), jsGetI_nonneg _ _ (by norm_num)]
  norm_num
  by_cases hc : jsLt h[1]? h[0]? = true
  · rw [if_pos hc, if_pos hc]
    have hswap : swapI h 1 0 = swap h 1 0 := by
      unfold swapI
      norm_num
    rw [hswap]
    rw [shiftUpF_cur_zero]
    exact (shiftUpIdxF_par_neg _ _ _ _ (by norm_num)).symm
  · rw [if_neg hc, if_neg hc]

/-- From index 2 the two sift-up loops agree: the first parent index is 1
for both, after which they continue from index 1. -/
theorem shiftUp_agree_two (f1 f2 : Nat) (h : List (Option Int)) :
    shiftUpF (f1 + 3) h 2 = shiftUpIdxF (f2 + 3) h 2 1 := by
  show shiftUpF (f1 + 2 + 1) h 2 = shiftUpIdxF (f2 + 2 + 1) h 2 1
  rw [shiftUpF_succ, shiftUpIdxF_succ]
  rw [jsGetI_nonneg _ _ (by norm_num), jsGetI_nonneg _ _ (by norm_num)]
  rw [show Int.toNat 2 = 2 from rfl, show Int.toNat 1 = 1 from rfl]
  norm_num
  by_cases hc : jsLt h[2]? h[1]? = true
  · rw [if_pos hc, if_pos hc]
    have hswap : swapI h 2 1 = swap h 2 1 := by
      unfold swapI
      rw [show Int.toNat 2 = 2 from rfl, show Int.toNat 1 = 1 from rfl]
    rw [hswap]
    exact shiftUp_agree_one f1 f2 _
  · rw [if_neg hc, if_neg hc]

/-- From index 3 the two sift-up loops agree, for the same reason as from
index 2. -/
theorem shiftUp_agree_three (f1 f2 : Nat) (h : List (Option Int)) :
    shiftUpF (f1 + 3) h 3 = shiftUpIdxF (f2 + 3) h 3 1 := by
  show shiftUpF (f1 + 2 + 1) h 3 = shiftUpIdxF (f2 + 2 + 1) h 3 1
  rw [shiftUpF_succ, shiftUpIdxF_succ]
  rw [jsGetI_nonneg _ _ (by norm_num), jsGetI_nonneg _ _ (by norm_num)]
  rw [show Int.toNat 3 = 3 from rfl, show Int.toNat 1 = 1 from rfl]
  norm_num
  by_cases hc : jsLt h[3]? h[1]? = true
  · rw [if_pos hc, if_pos hc]
    have hswap : swapI h 3 1 = swap h 3 1 := by
      unfold swapI
      rw [show Int.toNat 3 = 3 from rfl, show Int.toNat 1 = 1 from rfl]
    rw [hswap]
    exact shiftUp_agree_one f1 f2 _
  · rw [if_neg hc, if_neg hc]

/-- On a backing array of at most three slots (hence at most two stored
values) the two insert implementations coincide, whatever the slots hold:
the sift-up visits only indices 3, 2, 1, 0, where the two parent-index
formulas select the same comparisons. -/
theorem insert_eq_insertIdx_of_le_three (h : List (Option Int)) (num : Int)
    (hlen : h.length ≤ 3) : MinHeap.insert h num = insertIdx h num := by
  rcases h with _ | ⟨a, _ | ⟨b, _ | ⟨c, _ | ⟨d, t⟩⟩⟩⟩
  · unfold MinHeap.insert insertIdx
    simp only [List.nil_append, List.length_cons, List.length_nil]
    norm_num
    exact (shiftUpF_cur_zero 0 _).trans (shiftUpIdxF_cur_zero 0 _).symm
  · unfold MinHeap.insert insertIdx
    simp only [List.cons_append, List.nil_append, List.length_cons, List.length_nil]
    norm_num
    exact shiftUp_agree_one 0 0 _
  · unfold MinHeap.insert insertIdx
    simp only [List.cons_append, List.nil_append, List.length_cons, List.length_nil]
    norm_num
    exact shiftUp_agree_two 0 0 _
  · unfold MinHeap.insert insertIdx
    simp only [List.cons_append, List.nil_append, List.length_cons, List.length_nil]
    norm_num
    exact shiftUp_agree_three 1 1 _
  · simp only [List.length_cons] at hlen
    omega

theorem length_shiftUpF : ∀ (fuel : Nat) (h : List (Option Int)) (cur : Nat),
    (shiftUpF fuel h cur).length = h.length := by
  intro fuel
  induction fuel with
  | zero => intro h cur; rfl
  | succ fuel ih =>
    intro h cur
    simp only [shiftUpF]
    split
    · rw [ih, length_swap]
    · rfl

theorem length_insert (h : List (Option Int)) (num : Int) :
    (MinHeap.insert h num).length = h.length + 1 := by
  unfold MinHeap.insert
  simp only
  rw [length_shiftUpF]
  simp

theorem foldl_insert_eq_foldl_insertIdx : ∀ (l : List Int) (h : List (Option Int)),
    h.length + l.length ≤ 4 → l.foldl MinHeap.insert h = l.foldl insertIdx h := by
  intro l
  induction l with
  | nil => intro h _; rfl
  | cons a l ih =>
    intro h hlen
    simp only [List.length_cons] at hlen
    simp only [List.foldl_cons]
    rw [← insert_eq_insertIdx_of_le_three h a (by omega)]
    refine ih _ ?_
    rw [length_insert]
    omega

/-- C10 counterexample.  On the insertion sequence [3, 5, 9, 2] the two
insert implementations produce different backing arrays from a freshly
constructed heap: [null, 2, 3, 9, 5] for `part_000` and [null, 3, 2, 9, 5]
for `index.js` (after the first swap brings 2 to index 2, `part_000`
compares it with slot 1 while `index.js` compares it with the slot-0
placeholder and stops). -/
theorem c10_insert_variants_differ :
    insertList [3, 5, 9, 2] ≠ insertListIdx [3, 5, 9, 2] := by
  decide

/-- C10, amended.  The two insert implementations produce identical
backing arrays on every insertion sequence of at most three values (the
parent-index formulas floor(i / 2) and floor((i - 1) / 2) only diverge at
an even index reached after a swap, which first happens on the fourth
insertion). -/
theorem c10_insert_variants_agree_up_to_three (l : List Int)
    (hl : l.length ≤ 3) : insertList l = insertListIdx l := by
  unfold insertList insertListIdx
  refine foldl_insert_eq_foldl_insertIdx l mkHeap ?_
  simp only [mkHeap, List.length_cons, List.length_nil]
  omega

/-- Witness for the amended C10 on a concrete three-element sequence. -/
theorem c10_insert_variants_agree_witness :
    ([3, 5, 9] : List Int).length ≤ 3 ∧
      insertList [3, 5, 9] = insertListIdx [3, 5, 9] :=
  ⟨by decide, c10_insert_variants_agree_up_to_three [3, 5, 9] (by decide)⟩

end MinHeap

/-!
The two FIFO queues of the repository.  The array-backed `Queue` keeps its
items in `this.items` (front of the queue at index 0); we embed the array
as a list with the front at the head, so `push` is append and `shift`
takes the head (returning `undefined`, modelled `none`, on an empty
array).  `LinkedListQueue` chains nodes from `head` to `tail` and tracks
`size`; we embed the chain as the list of its node data in head-to-tail
order together with the `size` counter.
-/

namespace Queue

/-- Source `enqueue`: push the item to the back, return the new size. -/
def enqueue (items : List α) (item : α) : Nat × List α :=
  ((items ++ [item]).length, items ++ [item])

/-- Source `dequeue`: `items.shift()` removes and returns the first item,
or returns `undefined` (here `none`) leaving the empty array unchanged. -/
def dequeue (items : List α) : Option α × List α :=
  (items.head?, items.tail)

/-- Source `front`: `items[0]`, `undefined` when empty. -/
def front (items : List α) : Option α :=
  items.head?

/-- Source `isEmpty`: `items.length === 0`. -/
def isEmpty (items : List α) : Bool :=
  items.isEmpty

/-- Source `size`: `items.length`. -/
def size (items : List α) : Nat :=
  items.length

end Queue

/-- The `LinkedListQueue` state: node data in head-to-tail order, plus the
`size` counter the class maintains separately. -/
structure LinkedListQueue (α : Type) where
  items : List α
  size : Nat

/-- Source `LinkedListQueue.enqueue`: link a new tail node (append to the
chain whether or not the queue was empty) and return the pre-incremented
size. -/
def LinkedListQueue.enqueue (q : LinkedListQueue α) (val : α) :
    Nat × LinkedListQueue α :=
  (q.size + 1, ⟨q.items ++ [val], q.size + 1⟩)

/-- Source `LinkedListQueue.dequeue`: return `null` when there is no head
node, otherwise unlink the head, decrement `size` and return its data. -/
def LinkedListQueue.dequeue (q : LinkedListQueue α) :
    Option α × LinkedListQueue α :=
  match q.items with
  | [] => (none, q)
  | x :: t => (some x, ⟨t, q.size - 1⟩)

/-- Source `LinkedListQueue.front`: `head ? head.data : null`. -/
def LinkedListQueue.front (q : LinkedListQueue α) : Option α :=
  q.items.head?

/-- Calls a client can interleave on a queue instance. -/
inductive QOp (α : Type) where
  | enq (a : α)
  | deq

/-- The values passed to `enqueue`, in call order. -/
def enqValues : List (QOp α) → List α
  | [] => []
  | QOp.enq a :: ops => a :: enqValues ops
  | QOp.deq :: ops => enqValues ops

/-- One call on the array-backed queue, collecting the values returned by
successful dequeues. -/
def stepArr (s : List α × List α) : QOp α → List α × List α
  | QOp.enq a => ((Queue.enqueue s.1 a).2, s.2)
  | QOp.deq => ((Queue.dequeue s.1).2, s.2 ++ (Queue.dequeue s.1).1.toList)

/-- Running a call sequence on a fresh array-backed queue: final items and
the successful dequeue outputs in call order. -/
def runArr (ops : List (QOp α)) : List α × List α :=
  ops.foldl stepArr ([], [])

/-- One call on the linked-list queue, collecting the values returned by
successful dequeues. -/
def stepLL (s : LinkedListQueue α × List α) : QOp α → LinkedListQueue α × List α
  | QOp.enq a => ((LinkedListQueue.enqueue s.1 a).2, s.2)
  | QOp.deq =>
    ((LinkedListQueue.dequeue s.1).2, s.2 ++ (LinkedListQueue.dequeue s.1).1.toList)

/-- Running a call sequence on a fresh linked-list queue. -/
def runLL (ops : List (QOp α)) : LinkedListQueue α × List α :=
  ops.foldl stepLL (⟨[], 0⟩, [])

theorem runArr_fifo_from : ∀ (ops : List (QOp α)) (st out : List α),
    (ops.foldl stepArr (st, out)).2 ++ (ops.foldl stepArr (st, out)).1 =
      out ++ st ++ enqValues ops := by
  intro ops
  induction ops with
  | nil => intro st out; simp [enqValues]
  | cons op ops ih =>
    intro st out
    cases op with
    | enq a =>
      simp only [List.foldl_cons, stepArr, Queue.enqueue, enqValues]
      rw [ih]
      simp
    | deq =>
      cases st with
      | nil =>
        simp only [List.foldl_cons, stepArr, Queue.dequeue, enqValues,
          List.head?_nil, List.tail_nil, Option.toList_none, List.append_nil]
        simpa using ih [] out
      | cons x t =>
        simp only [List.foldl_cons, stepArr, Queue.dequeue, enqValues,
          List.head?_cons, List.tail_cons, Option.toList_some]
        rw [ih]
        simp

theorem runLL_simulates_runArr : ∀ (ops : List (QOp α)) (st out : List α),
    ops.foldl stepLL (⟨st, st.length⟩, out) =
      (⟨(ops.foldl stepArr (st, out)).1, (ops.foldl stepArr (st, out)).1.length⟩,
        (ops.foldl stepArr (st, out)).2) := by
  intro ops
  induction ops with
  | nil => intro st out; rfl
  | cons op ops ih =>
    intro st out
    cases op with
    | enq a =>
      simp only [List.foldl_cons, stepLL, stepArr, LinkedListQueue.enqueue,
        Queue.enqueue]
      rw [show st.length + 1 = (st ++ [a]).length by simp]
      exact ih (st ++ [a]) out
    | deq =>
      cases st with
      | nil =>
        simp only [List.foldl_cons, stepLL, stepArr, LinkedListQueue.dequeue,
          Queue.dequeue, List.head?_nil, List.tail_nil, Option.toList_none,
          List.append_nil]
        exact ih [] out
      | cons x t =>
        simp only [List.foldl_cons, stepLL, stepArr, LinkedListQueue.dequeue,
          Queue.dequeue, List.head?_cons, List.tail_cons, Option.toList_some]
        rw [show (x :: t).length - 1 = t.length by simp]
        exact ih t (out ++ [x])

/-- C8.  For any interleaving of enqueue and dequeue calls on a fresh
queue of either variant: the successful dequeue outputs followed by the
remaining items are exactly the enqueued values in call order (items
dequeue in the order they were enqueued), the linked-list variant's chain,
size and outputs agree with the array variant's, and a dequeue on an empty
queue of either variant signals absence and leaves the state unchanged. -/
theorem c8_fifo_queues (α : Type) (ops : List (QOp α)) :
    (runArr ops).2 ++ (runArr ops).1 = enqValues ops
    ∧ (runLL ops).1.items = (runArr ops).1
    ∧ (runLL ops).1.size = (runArr ops).1.length
    ∧ (runLL ops).2 = (runArr ops).2
    ∧ Queue.dequeue ([] : List α) = (none, [])
    ∧ ∀ n : Nat,
        LinkedListQueue.dequeue (⟨[], n⟩ : LinkedListQueue α) = (none, ⟨[], n⟩) := by
  have hfifo : (runArr ops).2 ++ (runArr ops).1 = enqValues ops := by
    have := runArr_fifo_from ops [] []
    simpa [runArr] using this
  have hsim := runLL_simulates_runArr ops ([] : List α) []
  refine ⟨hfifo, ?_, ?_, ?_, rfl, fun n => rfl⟩
  · rw [runLL, show ((⟨[], 0⟩ : LinkedListQueue α) = ⟨[], ([] : List α).length⟩) from rfl,
      hsim]
    simp [runArr]
  · rw [runLL, show ((⟨[], 0⟩ : LinkedListQueue α) = ⟨[], ([] : List α).length⟩) from rfl,
      hsim]
    simp [runArr]
  · rw [runLL, show ((⟨[], 0⟩ : LinkedListQueue α) = ⟨[], ([] : List α).length⟩) from rfl,
      hsim]
    simp [runArr]
